import Mathlib

/-!
Shallow embedding of `dataset.py` from the SingYourFeelings repository:
the feature normalizer (`padNote`, `padLyrics`), the paired dataset's
batching (`__len__`, `__getitem__`), the synchronized `shuffle`, and the
score decoder `vec2midi`, together with theorems settling the spec claims.
-/

namespace SYF

/-! ## Feature normalizer (`Dataset.padNote`, `Dataset.padLyrics`) -/

/-- One step of the inner `padNote` generator: a kept track is right-padded
with zeros to length `L` when shorter, otherwise right-truncated to `L`
(`yield track + [0]*(L-len(track))` / `yield track[:L]`). -/
def padTrack (L : Nat) (track : List Int) : List Int :=
  if track.length < L then track ++ List.replicate (L - track.length) 0
  else track.take L

/-- Embedding of the inner `padNote(note)` generator of `Dataset.padNote`:
truncate the channel list to `Ci` when longer, normalize each kept track with
`padTrack`, then append all-zero tracks until `Ci` channels exist
(`for _ in range(len(note), Ci): yield [0]*L`). -/
def padNote (Ci L : Nat) (note : List (List Int)) : List (List Int) :=
  let kept := if note.length > Ci then note.take Ci else note
  kept.map (padTrack L) ++ List.replicate (Ci - kept.length) (List.replicate L 0)

/-- Embedding of the inner `padLyrics(lyr)` of `Dataset.padLyrics`: pad with
the pad value `pv` to length `L` when shorter, else truncate to the first `L`
elements. -/
def padLyrics (L : Nat) (pv : Int) (lyr : List Int) : List Int :=
  if lyr.length < L then lyr ++ List.replicate (L - lyr.length) pv
  else lyr.take L

/-! ## Batch count (`Dataset.__len__`) -/

/-- Embedding of `Dataset.__len__`: `(size + bs - 1) // bs`. -/
def datasetLen (size bs : Nat) : Nat :=
  (size + bs - 1) / bs

/-! ## Helper lemmas -/

theorem padTrack_length (L : Nat) (t : List Int) : (padTrack L t).length = L := by
  unfold padTrack
  split
  · simp only [List.length_append, List.length_replicate]
    omega
  · simp only [List.length_take]
    omega

theorem padLyrics_length (L : Nat) (pv : Int) (x : List Int) :
    (padLyrics L pv x).length = L := by
  unfold padLyrics
  split
  · simp only [List.length_append, List.length_replicate]
    omega
  · simp only [List.length_take]
    omega

theorem padNote_kept_length (Ci : Nat) (note : List (List Int)) :
    (if note.length > Ci then note.take Ci else note).length = min note.length Ci := by
  split
  · simp only [List.length_take]
    omega
  · omega

/-! ## Claim theorems: normalizer -/

/-- C5: `padNote` always returns exactly `Ci` channels of exactly `L` events:
channels beyond the first `Ci` are dropped, kept channels are normalized by
`padTrack` (right-truncate to `L` or right-pad with zeros), missing channels
are appended as all-zero channels, and the empty matrix yields `Ci` all-zero
channels. -/
theorem c5_padNote_shape (Ci L : Nat) (m : List (List Int)) :
    (padNote Ci L m).length = Ci ∧
    (∀ t ∈ padNote Ci L m, t.length = L) ∧
    (∀ j, j < min m.length Ci → (padNote Ci L m).getD j [] = padTrack L (m.getD j [])) ∧
    (∀ j, min m.length Ci ≤ j → j < Ci → (padNote Ci L m).getD j [] = List.replicate L 0) ∧
    padNote Ci L [] = List.replicate Ci (List.replicate L 0) := by
  have hkept := padNote_kept_length Ci m
  refine ⟨?_, ?_, ?_, ?_, ?_⟩
  · unfold padNote
    simp only [List.length_append, List.length_map, List.length_replicate, hkept]
    omega
  · intro t ht
    unfold padNote at ht
    rcases List.mem_append.1 ht with h | h
    · obtain ⟨s, _, rfl⟩ := List.mem_map.1 h
      exact padTrack_length L s
    · rw [List.eq_of_mem_replicate h]
      exact List.length_replicate L 0
  · intro j hj
    unfold padNote
    have hjm : j < (if m.length > Ci then m.take Ci else m).length := by omega
    rw [List.getD_append _ _ _ _ (by simpa using hjm)]
    have hmap : ((if m.length > Ci then m.take Ci else m).map (padTrack L)).getD j
        (padTrack L []) = padTrack L ((if m.length > Ci then m.take Ci else m).getD j []) :=
      List.getD_map _ _ _
    have hsame : ((if m.length > Ci then m.take Ci else m).map (padTrack L)).getD j [] =
        ((if m.length > Ci then m.take Ci else m).map (padTrack L)).getD j (padTrack L []) := by
      rw [List.getD_eq_getElem _ _ (by simpa using hjm), List.getD_eq_getElem _ _ (by simpa using hjm)]
    rw [hsame, hmap]
    congr 1
    split
    · rw [List.getD_eq_getElem _ _ (by simp; omega), List.getD_eq_getElem _ _ (by omega)]
      exact List.getElem_take _
    · rfl
  · intro j hj hjCi
    unfold padNote
    rw [List.getD_append_right _ _ _ _ (by simpa [hkept] using hj)]
    rw [List.getD_eq_getElem _ _ (by simp [hkept]; omega)]
    simp
  · unfold padNote
    simp

/-- C8: `padLyrics` truncates to the first `L` elements when the input has
length at least `L`, otherwise appends `L - len` copies of the pad value; a
sequence of exactly `L` elements is unchanged, one of `L+1` drops its last
element, and one of `L-1` gains exactly one pad element. -/
theorem c8_padLyrics_spec (L : Nat) (pv : Int) (x : List Int) :
    (L ≤ x.length → padLyrics L pv x = x.take L) ∧
    (x.length < L → padLyrics L pv x = x ++ List.replicate (L - x.length) pv) ∧
    (x.length = L → padLyrics L pv x = x) ∧
    (x.length = L + 1 → padLyrics L pv x = x.dropLast) ∧
    (x.length + 1 = L → padLyrics L pv x = x ++ [pv]) := by
  refine ⟨?_, ?_, ?_, ?_, ?_⟩
  · intro h
    unfold padLyrics
    rw [if_neg (by omega)]
  · intro h
    unfold padLyrics
    rw [if_pos h]
  · intro h
    unfold padLyrics
    rw [if_neg (by omega), ← h, List.take_length]
  · intro h
    unfold padLyrics
    rw [if_neg (by omega), List.dropLast_eq_take, h]
    simp
  · intro h
    unfold padLyrics
    rw [if_pos (by omega)]
    have : L - x.length = 1 := by omega
    rw [this]
    rfl

/-- C8 witness: a 3-element sequence is truncated to its first 2 elements when
the fixed length is 2. -/
theorem c8_padLyrics_spec_witness : padLyrics 2 9 [1, 2, 3] = [1, 2] := by
  have h := (c8_padLyrics_spec 2 9 [1, 2, 3]).1 (by decide)
  simpa using h

/-- C9: lyric normalization is idempotent. -/
theorem c9_padLyrics_idempotent (L : Nat) (pv : Int) (x : List Int) :
    padLyrics L pv (padLyrics L pv x) = padLyrics L pv x := by
  have hlen := padLyrics_length L pv x
  set y := padLyrics L pv x with hy
  unfold padLyrics
  rw [if_neg (by omega), ← hlen, List.take_length]

/-! ## Claim theorems: batch count -/

/-- C7: the dataset length `(size + bs - 1) / bs` equals `ceil(size / bs)`
for every `size` and every `bs ≥ 1`. -/
theorem c7_len_is_ceil (size bs : Nat) (hbs : 1 ≤ bs) :
    datasetLen size bs = ⌈(size : ℚ) / (bs : ℚ)⌉₊ := by
  rcases Nat.eq_zero_or_pos size with hz | hpos
  · subst hz
    unfold datasetLen
    rw [Nat.div_eq_of_lt (by omega)]
    simp
  · -- size = x + 1 with x ≥ 0; datasetLen = x / bs + 1
    obtain ⟨x, rfl⟩ : ∃ x, size = x + 1 := ⟨size - 1, by omega⟩
    have hlen : datasetLen (x + 1) bs = x / bs + 1 := by
      unfold datasetLen
      have : x + 1 + bs - 1 = x + bs := by omega
      rw [this, Nat.add_div_right _ (by omega)]
    rw [hlen]
    have hq := Nat.div_add_mod x bs
    have hm : x % bs < bs := Nat.mod_lt _ (by omega)
    have hub : (x + 1 : Nat) ≤ (x / bs + 1) * bs := by
      have h1 : (x / bs + 1) * bs = bs * (x / bs) + bs := by ring
      rw [h1]
      omega
    have hlb : (x / bs) * bs < x + 1 := by
      have h2 : (x / bs) * bs = bs * (x / bs) := by ring
      rw [h2]
      omega
    symm
    have hne : x / bs + 1 ≠ 0 := Nat.succ_ne_zero _
    rw [Nat.ceil_eq_iff hne]
    constructor
    · have hcast : ((x / bs + 1 - 1 : Nat) : ℚ) = ((x / bs : Nat) : ℚ) := by
        norm_cast
      rw [hcast, lt_div_iff₀ (by positivity)]
      exact_mod_cast hlb
    · rw [div_le_iff₀ (by positivity)]
      exact_mod_cast hub

/-- C7 witness: with batch size 3 and 7 records the dataset length is 3, and
it equals the ceiling of 7/3. -/
theorem c7_len_is_ceil_witness :
    datasetLen 7 3 = ⌈(7 : ℚ) / (3 : ℚ)⌉₊ ∧ datasetLen 7 3 = 3 :=
  ⟨c7_len_is_ceil 7 3 (by decide), by decide⟩

/-- C5 witness: with `Ci = 2, L = 2`, channel 0 of a 3-channel matrix is kept
and normalized with `padTrack`, and the missing channel 1 of a 1-channel
matrix is an all-zero channel. -/
theorem c5_padNote_shape_witness :
    (padNote 2 2 [[1, 2, 3], [4], [5]]).getD 0 [] = padTrack 2 [1, 2, 3] ∧
    (padNote 2 2 [[4]]).getD 1 [] = List.replicate 2 0 :=
  ⟨(c5_padNote_shape 2 2 [[1, 2, 3], [4], [5]]).2.2.1 0 (by decide),
   (c5_padNote_shape 2 2 [[4]]).2.2.2.1 1 (by decide) (by decide)⟩

/-! ## Score decoder (`vec2midi`) -/

/-- Raw note fields produced by the external `m2v.id2Note` embedding decoder
after the `feat2id` remapping: the decoded time delta and the remaining
remapped payload, represented by its pitch field. -/
structure RawNote where
  time : Int
  pitch : Int
deriving DecidableEq

/-- One note event emitted by `midi.addNote(track=channel, channel=channel,
**note)`: the track and channel it is written to, its absolute onset time and
its pitch payload. -/
structure NoteEvent where
  track : Nat
  channel : Nat
  time : Int
  pitch : Int
deriving DecidableEq

/-- The `MIDIFile` produced by `vec2midi`: the global tempo set by `addTempo`
and one event list per track. -/
structure MidiScore where
  tempo : Int
  tracks : List (List NoteEvent)
deriving DecidableEq

/-- Embedding of the inner loop of `vec2midi` for one channel: the running
`time` accumulator starts at the given value (0 at the call site) and each
embedding contributes one event whose onset is
`note['time'] = time = note['time'] + time`. -/
def decodeChannel (decode : α → RawNote) (ch : Nat) : Int → List α → List NoteEvent
  | _, [] => []
  | time, e :: es =>
    let n := decode e
    let t := n.time + time
    ⟨ch, ch, t, n.pitch⟩ :: decodeChannel decode ch t es

/-- Embedding of `vec2midi`: a `MIDIFile` with `Ci` tracks, global tempo
`tempo * default`, and for each channel `c` of the input the events of
`decodeChannel` starting from accumulator 0, written to track `c`.
The external `m2v.id2Note` composed with the `feat2id` remapping is the
`decode` parameter. -/
def vec2midi (decode : α → RawNote) (Ci : Nat) (dflt : Int)
    (notes : List (List α)) (tempo : Int) : MidiScore :=
  ⟨tempo * dflt,
   (List.range Ci).map (fun c => decodeChannel decode c 0 (notes.getD c []))⟩

theorem decodeChannel_time (decode : α → RawNote) (ch : Nat) (d : NoteEvent) :
    ∀ (es : List α) (t0 : Int) (k : Nat), k < es.length →
      ((decodeChannel decode ch t0 es).getD k d).time
        = t0 + ((es.take (k + 1)).map (fun e => (decode e).time)).sum := by
  intro es
  induction es with
  | nil => intro t0 k hk; simp at hk
  | cons e es ih =>
    intro t0 k hk
    cases k with
    | zero =>
      simp [decodeChannel]
      ring
    | succ k =>
      have hk2 : k < es.length := by simpa using hk
      simp only [decodeChannel, List.getD_cons_succ, List.take_succ_cons,
        List.map_cons, List.sum_cons]
      rw [ih ((decode e).time + t0) k hk2]
      ring

/-- C2: within every channel `c` decoded by `vec2midi`, the onset of the
`k`-th emitted note event equals the running sum of the first `k+1` decoded
time fields of that channel (time deltas accumulate from 0). -/
theorem c2_vec2midi_cumulative_time (decode : α → RawNote) (Ci : Nat)
    (dflt tempo : Int) (notes : List (List α)) (c k : Nat)
    (_hCi : notes.length ≤ Ci) (hc : c < Ci) (hk : k < (notes.getD c []).length) :
    ((((vec2midi decode Ci dflt notes tempo).tracks.getD c []).getD k
        ⟨0, 0, 0, 0⟩).time)
      = (((notes.getD c []).take (k + 1)).map (fun e => (decode e).time)).sum := by
  have htr : (vec2midi decode Ci dflt notes tempo).tracks.getD c []
      = decodeChannel decode c 0 (notes.getD c []) := by
    unfold vec2midi
    simp only
    rw [List.getD_eq_getElem _ _ (by simpa using hc)]
    simp
  rw [htr, decodeChannel_time decode c _ _ 0 k hk, zero_add]

/-- C2 witness: a single channel whose three embeddings decode to time deltas
5, 0 and 3 produces onsets 5, 5 and 8. -/
theorem c2_vec2midi_cumulative_time_witness :
    ((((vec2midi (fun e => ⟨List.getD [5, 0, 3] e 0, 60⟩) 1 1 [[0, 1, 2]] 1).tracks.getD
        0 []).getD 0 ⟨0, 0, 0, 0⟩).time) = 5 ∧
    ((((vec2midi (fun e => ⟨List.getD [5, 0, 3] e 0, 60⟩) 1 1 [[0, 1, 2]] 1).tracks.getD
        0 []).getD 1 ⟨0, 0, 0, 0⟩).time) = 5 ∧
    ((((vec2midi (fun e => ⟨List.getD [5, 0, 3] e 0, 60⟩) 1 1 [[0, 1, 2]] 1).tracks.getD
        0 []).getD 2 ⟨0, 0, 0, 0⟩).time) = 8 :=
  ⟨(c2_vec2midi_cumulative_time _ 1 1 1 [[0, 1, 2]] 0 0 (by decide) (by decide)
      (by decide)).trans (by decide),
   (c2_vec2midi_cumulative_time _ 1 1 1 [[0, 1, 2]] 0 1 (by decide) (by decide)
      (by decide)).trans (by decide),
   (c2_vec2midi_cumulative_time _ 1 1 1 [[0, 1, 2]] 0 2 (by decide) (by decide)
      (by decide)).trans (by decide)⟩

/-- Concrete embedding resolver for the C3 scenario: embedding id 1 (`e1`)
resolves to time delta 10 and pitch 60; the pad embedding 0 resolves to the
all-zero raw note. -/
def decodePad : Int → RawNote := fun e => if e = 1 then ⟨10, 60⟩ else ⟨0, 0⟩

/-- C3 counterexample: with `Ci = 2, L = 2` the matrix `[[e1]]` (with
`e1 = 1`, pad `= 0`) normalizes to `[[1, 0], [0, 0]]` as claimed, but
decoding that normalized matrix emits one event per embedding, pads included:
track 0 holds two events, not exactly one, and track 1 is not empty. -/
theorem c3_counterexample :
    padNote 2 2 [[1]] = [[1, 0], [0, 0]] ∧
    ((vec2midi decodePad 2 1 (padNote 2 2 [[1]]) 1).tracks.getD 0 []).length = 2 ∧
    ((vec2midi decodePad 2 1 (padNote 2 2 [[1]]) 1).tracks.getD 1 []).length ≠ 0 := by
  decide

/-- C3 amended: the matrix `[[e1]]` normalizes to `[[e1, pad], [pad, pad]]`,
and decoding the normalized matrix emits one event per embedding including
pad embeddings: track 0 holds two events whose first has onset 10 and pitch
60, track 1 holds two pad-decoded events; tracks are empty only for channels
with zero embeddings. -/
theorem c3_amended_pad_events_decoded :
    padNote 2 2 [[1]] = [[1, 0], [0, 0]] ∧
    vec2midi decodePad 2 1 (padNote 2 2 [[1]]) 1 =
      ⟨1, [[⟨0, 0, 10, 60⟩, ⟨0, 0, 10, 0⟩], [⟨1, 1, 0, 0⟩, ⟨1, 1, 0, 0⟩]]⟩ ∧
    vec2midi decodePad 2 1 [[], []] 1 = ⟨1, [[], []]⟩ := by
  decide

/-! ## Batch retrieval (`Dataset.__getitem__`) -/

/-- Python slice semantics `col[b:e]` with step 1: negative bounds count from
the end, bounds are clamped to `[0, len]`, `e = none` means "to the end". -/
def pySlice (col : List α) (b : Int) (e : Option Int) : List α :=
  let n : Int := col.length
  let b2 : Int := if b < 0 then max (n + b) 0 else min b n
  let e2 : Int :=
    match e with
    | none => n
    | some ev => if ev < 0 then max (n + ev) 0 else min ev n
  (col.drop b2.toNat).take (e2 - b2).toNat

/-- Embedding of the slicing part of `Dataset.__getitem__` applied to one
column: `begin = bs*i`, `end = begin+bs`, and `end` is replaced by `None`
when `end >= size`. -/
def batchSlice (bs size : Nat) (col : List α) (i : Int) : List α :=
  let b : Int := (bs : Int) * i
  let e : Int := b + bs
  pySlice col b (if e ≥ (size : Int) then none else some e)

/-- Embedding of `Dataset.__getitem__` on one column: indices at or above the
batch count raise `IndexError('Index %d out of range (%d)' % (i, len(self)-1))`,
modelled as an error value carrying the offending index and `len(self) - 1`;
otherwise the column slice is returned. -/
def getItem (bs size : Nat) (col : List α) (i : Int) :
    Except (Int × Int) (List α) :=
  if i ≥ (datasetLen size bs : Int) then
    Except.error (i, (datasetLen size bs : Int) - 1)
  else
    Except.ok (batchSlice bs size col i)

/-! ## Batching helper lemmas -/

theorem batchSlice_nat (bs size : Nat) (col : List α) (i : Nat)
    (hsz : col.length = size) :
    batchSlice bs size col (i : Nat) =
      if size ≤ bs * (i + 1) then col.drop (bs * i)
      else (col.drop (bs * i)).take bs := by
  unfold batchSlice pySlice
  simp only
  have hb : ¬((bs : Int) * ((i : Nat) : Int) < 0) := by
    rw [not_lt]
    positivity
  have hmul : ((bs * i : Nat) : Int) = (bs : Int) * ((i : Nat) : Int) := by
    push_cast
    ring
  have hmul2 : ((bs * (i + 1) : Nat) : Int) = (bs : Int) * ((i : Nat) : Int) + bs := by
    push_cast
    ring
  rw [if_neg hb]
  by_cases hcase : (bs : Int) * ((i : Nat) : Int) + bs ≥ (size : Int)
  · have houter : size ≤ bs * (i + 1) := by omega
    rw [if_pos hcase, if_pos houter]
    -- end is None: the slice runs to the end of the column
    have hb2 : (min ((bs : Int) * ((i : Nat) : Int)) (col.length : Int)).toNat
        = min (bs * i) size := by omega
    rw [hb2]
    have hlen : ((col.length : Int)
        - min ((bs : Int) * ((i : Nat) : Int)) (col.length : Int)).toNat
        = size - min (bs * i) size := by omega
    rw [hlen]
    have hdl : (col.drop (min (bs * i) size)).length = size - min (bs * i) size := by
      rw [List.length_drop, hsz]
    rw [← hdl, List.take_length]
    rcases Nat.le_total (bs * i) size with h | h
    · rw [Nat.min_eq_left h]
    · rw [Nat.min_eq_right h, List.drop_eq_nil_of_le (by omega),
        List.drop_eq_nil_of_le (by omega)]
  · have houter : ¬(size ≤ bs * (i + 1)) := by omega
    rw [if_neg hcase, if_neg houter]
    -- end stays: begin and end are both below size
    simp only
    have hev : ¬((bs : Int) * ((i : Nat) : Int) + bs < 0) := by omega
    rw [if_neg hev]
    have hb2 : (min ((bs : Int) * ((i : Nat) : Int)) (col.length : Int)).toNat
        = bs * i := by omega
    have he2 : (min ((bs : Int) * ((i : Nat) : Int) + bs) (col.length : Int)
        - min ((bs : Int) * ((i : Nat) : Int)) (col.length : Int)).toNat = bs := by
      omega
    rw [hb2, he2]

theorem datasetLen_rec (size bs : Nat) (hbs : 1 ≤ bs) (hs : 1 ≤ size) :
    datasetLen size bs = datasetLen (size - bs) bs + 1 := by
  unfold datasetLen
  rcases Nat.le_total bs size with h | h
  · have h1 : size + bs - 1 = (size - 1) + bs := by omega
    have h2 : size - bs + bs - 1 = size - 1 := by omega
    rw [h1, h2, Nat.add_div_right _ (by omega)]
  · have h1 : size - bs = 0 := by omega
    rw [h1]
    have h2 : (0 + bs - 1) / bs = 0 := Nat.div_eq_of_lt (by omega)
    rw [h2]
    exact Nat.div_eq_of_lt_le (by omega) (by omega)

theorem datasetLen_eq_zero (size bs : Nat) (hbs : 1 ≤ bs)
    (h : datasetLen size bs = 0) : size = 0 := by
  unfold datasetLen at h
  by_contra hne
  have h1 : 1 * bs ≤ size + bs - 1 := by omega
  have h2 : 1 ≤ (size + bs - 1) / bs := (Nat.le_div_iff_mul_le (by omega)).mpr h1
  omega

theorem datasetLen_bounds (size bs : Nat) (hbs : 1 ≤ bs) :
    size ≤ bs * datasetLen size bs ∧
    (0 < size → bs * (datasetLen size bs - 1) < size) := by
  rcases Nat.eq_zero_or_pos size with hz | hpos
  · subst hz
    simp
  · obtain ⟨x, rfl⟩ : ∃ x, size = x + 1 := ⟨size - 1, by omega⟩
    have hlen : datasetLen (x + 1) bs = x / bs + 1 := by
      unfold datasetLen
      have h : x + 1 + bs - 1 = x + bs := by omega
      rw [h, Nat.add_div_right _ (by omega)]
    rw [hlen]
    have hq := Nat.div_add_mod x bs
    have hm : x % bs < bs := Nat.mod_lt _ (by omega)
    constructor
    · have h1 : bs * (x / bs + 1) = bs * (x / bs) + bs := by ring
      rw [h1]
      omega
    · intro _
      have h2 : x / bs + 1 - 1 = x / bs := Nat.succ_sub_one _
      rw [h2]
      omega

theorem batch_join_aux (bs : Nat) (hbs : 1 ≤ bs) :
    ∀ (m : Nat) (col : List α), datasetLen col.length bs = m →
      (((List.range m).map (fun i => batchSlice bs col.length col (i : Nat))).flatten
        = col) := by
  intro m
  induction m with
  | zero =>
    intro col hm
    have h0 : col.length = 0 := datasetLen_eq_zero _ _ hbs hm
    rw [List.eq_nil_of_length_eq_zero h0]
    simp
  | succ m ih =>
    intro col hm
    have hpos : 1 ≤ col.length := by
      by_contra h
      have h0 : col.length = 0 := by omega
      rw [h0] at hm
      unfold datasetLen at hm
      rw [Nat.div_eq_of_lt (by omega)] at hm
      omega
    have hrec := datasetLen_rec col.length bs hbs hpos
    have hdrop : (col.drop bs).length = col.length - bs := by
      rw [List.length_drop]
    have hm2 : datasetLen (col.drop bs).length bs = m := by
      rw [hdrop]
      omega
    have hshift : ∀ i : Nat, batchSlice bs col.length col ((i + 1 : Nat) : Int)
        = batchSlice bs (col.drop bs).length (col.drop bs) (i : Nat) := by
      intro i
      rw [batchSlice_nat bs col.length col (i + 1) rfl,
        batchSlice_nat bs (col.drop bs).length (col.drop bs) i rfl, hdrop]
      have hd : ∀ j : Nat, (col.drop bs).drop (bs * j) = col.drop (bs * (j + 1)) := by
        intro j
        rw [List.drop_drop]
        congr 1
        ring
      have hc1 : bs * (i + 1 + 1) = bs * (i + 1) + bs := by ring
      have hc2 : bs * (i + 1) = bs * i + bs := by ring
      by_cases h : col.length ≤ bs * (i + 1 + 1)
      · rw [if_pos h, if_pos (by omega), hd]
      · rw [if_neg h, if_neg (by omega), hd]
    rw [List.range_succ_eq_map, List.map_cons, List.flatten_cons, List.map_map]
    have hmap : (List.map ((fun i => batchSlice bs col.length col (i : Nat)) ∘
        Nat.succ) (List.range m)).flatten = col.drop bs := by
      have heq : List.map ((fun i => batchSlice bs col.length col (i : Nat)) ∘
          Nat.succ) (List.range m)
          = List.map (fun i => batchSlice bs (col.drop bs).length (col.drop bs)
              (i : Nat)) (List.range m) := by
        apply List.map_congr_left
        intro i _
        exact hshift i
      rw [heq]
      exact ih (col.drop bs) hm2
    rw [hmap]
    rw [batchSlice_nat bs col.length col 0 rfl]
    by_cases h : col.length ≤ bs * (0 + 1)
    · rw [if_pos h]
      simp only [Nat.mul_zero, List.drop_zero]
      have : col.drop bs = [] := List.drop_eq_nil_of_le (by omega)
      rw [this, List.append_nil]
    · rw [if_neg h]
      simp only [Nat.mul_zero, List.drop_zero]
      exact List.take_append_drop bs col

/-! ## Claim theorems: batching -/

/-- C4: concatenating the batch slices of a column for batch indices
`0 .. batchCount-1` in order reconstructs the column exactly; every non-final
batch holds `bs` records and the final batch holds
`size - bs * (batchCount - 1)` records. -/
theorem c4_batch_coverage (bs size : Nat) (col : List Int) (hbs : 1 ≤ bs)
    (hsz : col.length = size) :
    (((List.range (datasetLen size bs)).map
        (fun i => batchSlice bs size col (i : Nat))).flatten = col) ∧
    (∀ i : Nat, i + 1 < datasetLen size bs →
      (batchSlice bs size col (i : Nat)).length = bs) ∧
    (0 < datasetLen size bs →
      (batchSlice bs size col ((datasetLen size bs - 1 : Nat) : Int)).length
        = size - bs * (datasetLen size bs - 1)) := by
  subst hsz
  obtain ⟨hub, hlb⟩ := datasetLen_bounds col.length bs hbs
  refine ⟨batch_join_aux bs hbs _ col rfl, ?_, ?_⟩
  · intro i hi
    rw [batchSlice_nat bs col.length col i rfl]
    have hmono : bs * (i + 1) ≤ bs * (datasetLen col.length bs - 1) :=
      Nat.mul_le_mul_left bs (by omega)
    have hpos : 0 < col.length := by
      rcases Nat.eq_zero_or_pos col.length with hz | h
      · exfalso
        unfold datasetLen at hi
        rw [hz, Nat.div_eq_of_lt (by omega)] at hi
        omega
      · exact h
    have hlt : bs * (i + 1) < col.length := by
      have := hlb hpos
      omega
    rw [if_neg (by omega), List.length_take, List.length_drop]
    have hc : bs * (i + 1) = bs * i + bs := by ring
    omega
  · intro hpos
    rw [batchSlice_nat bs col.length col (datasetLen col.length bs - 1) rfl]
    have hcond : col.length ≤ bs * (datasetLen col.length bs - 1 + 1) := by
      have hc : datasetLen col.length bs - 1 + 1 = datasetLen col.length bs := by
        omega
      rw [hc]
      exact hub
    rw [if_pos hcond, List.length_drop]

/-- C4 witness: with batch size 3 on a column of 7 records, the three batch
slices concatenate back to the column. -/
theorem c4_batch_coverage_witness :
    ((List.range (datasetLen 7 3)).map
        (fun i => batchSlice 3 7 ([0, 1, 2, 3, 4, 5, 6] : List Int) (i : Nat))).flatten
      = [0, 1, 2, 3, 4, 5, 6] :=
  (c4_batch_coverage 3 7 [0, 1, 2, 3, 4, 5, 6] (by decide) (by decide)).1

/-- C6: for a non-negative batch index, `__getitem__` fails exactly when the
index is at least the batch count, and the error carries the offending index
together with `batchCount - 1`; otherwise it returns the slice. -/
theorem c6_getItem_range_error (bs size : Nat) (col : List Int) (i : Int)
    (_hbs : 1 ≤ bs) (_hi : 0 ≤ i) :
    ((datasetLen size bs : Int) ≤ i →
      getItem bs size col i = Except.error (i, (datasetLen size bs : Int) - 1)) ∧
    (i < (datasetLen size bs : Int) →
      getItem bs size col i = Except.ok (batchSlice bs size col i)) := by
  unfold getItem
  constructor
  · intro h
    rw [if_pos (by omega)]
  · intro h
    rw [if_neg (by omega)]

/-- C6 witness: with batch size 3 and 7 records (3 batches), index 3 raises
the out-of-range error carrying the index 3 and the upper bound 2. -/
theorem c6_getItem_range_error_witness :
    getItem 3 7 ([0, 1, 2, 3, 4, 5, 6] : List Int) 3 = Except.error (3, 2) := by
  have h := (c6_getItem_range_error 3 7 [0, 1, 2, 3, 4, 5, 6] 3 (by decide)
    (by decide)).1 (by decide)
  rw [h]
  congr 1

/-- C10: a negative batch index never raises the out-of-range error: the range
check only rejects indices at or above the batch count, so the slice is
computed from the negative bounds `begin = bs*i`, `end = begin + bs`; in
particular index `-1` with `bs ≤ size` yields an empty batch. -/
theorem c10_negative_index (bs size : Nat) (col : List Int) (i : Int)
    (hbs : 1 ≤ bs) (hi : i < 0) :
    getItem bs size col i = Except.ok (batchSlice bs size col i) ∧
    (bs ≤ size → col.length = size → batchSlice bs size col (-1) = []) := by
  constructor
  · unfold getItem
    rw [if_neg (by omega)]
  · intro h1 h2
    unfold batchSlice pySlice
    simp only
    have hc : ¬((bs : Int) * (-1) + (bs : Int) ≥ (size : Int)) := by omega
    rw [if_neg hc]
    simp only
    have hbneg : (bs : Int) * (-1) < 0 := by omega
    have henn : ¬((bs : Int) * (-1) + (bs : Int) < 0) := by omega
    rw [if_pos hbneg, if_neg henn]
    have he : (min ((bs : Int) * (-1) + bs) (col.length : Int)
        - max ((col.length : Int) + (bs : Int) * (-1)) 0).toNat = 0 := by
      omega
    rw [he]
    exact List.take_zero _

/-- C10 witness: index `-1` with batch size 2 on 3 records raises no error and
returns the empty batch. -/
theorem c10_negative_index_witness :
    getItem 2 3 ([10, 20, 30] : List Int) (-1)
        = Except.ok (batchSlice 2 3 [10, 20, 30] (-1)) ∧
    batchSlice 2 3 ([10, 20, 30] : List Int) (-1) = [] :=
  ⟨(c10_negative_index 2 3 [10, 20, 30] (-1) (by decide) (by decide)).1,
   (c10_negative_index 2 3 [10, 20, 30] (-1) (by decide) (by decide)).2
     (by decide) (by decide)⟩

/-! ## Synchronized shuffle (`Dataset.shuffle`) -/

/-- Python `zip(*cols)` (as a list of lists): the number of rows is the
minimum column length, and row `i` collects the `i`-th entry of every column. -/
def zipStar [Inhabited α] (cols : List (List α)) : List (List α) :=
  match cols with
  | [] => []
  | c :: cs =>
    (List.range (cs.foldl (fun m d => min m d.length) c.length)).map
      (fun i => (c :: cs).map (fun col => col.getD i default))

/-- Writing the permuted columns back through
`for k, v in zip(bundle, newCols): bundle[k] = v`: the first
`min |old| |new|` columns are replaced in order, later columns keep their old
value. -/
def updateCols (old new : List (List α)) : List (List α) :=
  new.take old.length ++ old.drop (min old.length new.length)

/-- Embedding of `Dataset.shuffle` on the positional columns of the two
bundles: zip all columns of `inp ++ tar` into rows, permute the rows
(`random.shuffle`, modelled by the permutation-applying parameter `shuf`),
unzip back into columns and write the first `len(inp)` columns into `inp` and
the rest into `tar`. -/
def shuffleData [Inhabited α] (shuf : List (List α) → List (List α))
    (inp tar : List (List α)) : List (List α) × List (List α) :=
  let data := inp ++ tar
  let rows := zipStar data
  let srows := shuf rows
  let cols := zipStar srows
  (updateCols inp (cols.take inp.length), updateCols tar (cols.drop inp.length))

/-- Observation for stating C1: the tuple of values at position `k` across
all columns. -/
def rowAt [Inhabited α] (cols : List (List α)) (k : Nat) : List α :=
  cols.map (fun c => c.getD k default)

/-! ## Shuffle helper lemmas -/

theorem foldl_min_const (n : Nat) (cs : List (List α)) :
    ∀ (a : Nat), (∀ d ∈ cs, d.length = n) → a = n →
      cs.foldl (fun m d => min m d.length) a = n := by
  induction cs with
  | nil =>
    intro a _ ha
    simpa using ha
  | cons c cs ih =>
    intro a hall ha
    simp only [List.foldl_cons]
    apply ih
    · intro d hd
      exact hall d (List.mem_cons_of_mem _ hd)
    · have hc : c.length = n := hall c (List.mem_cons_self _ _)
      omega

theorem zipStar_eq [Inhabited α] (cols : List (List α)) (n : Nat)
    (hne : cols ≠ []) (h : ∀ c ∈ cols, c.length = n) :
    zipStar cols = (List.range n).map (fun i => rowAt cols i) := by
  cases cols with
  | nil => exact absurd rfl hne
  | cons c cs =>
    have hfold : cs.foldl (fun m d => min m d.length) c.length = n :=
      foldl_min_const n cs c.length
        (fun d hd => h d (List.mem_cons_of_mem _ hd))
        (h c (List.mem_cons_self _ _))
    show (List.range (cs.foldl (fun m d => min m d.length) c.length)).map
        (fun i => (c :: cs).map (fun col => col.getD i default))
      = (List.range n).map (fun i => rowAt (c :: cs) i)
    rw [hfold]
    rfl

theorem getD_map_of_lt {β : Type _} [Inhabited α] (l : List β) (f : β → α)
    (k : Nat) (h : k < l.length) (d2 : β) :
    (l.map f).getD k default = f (l.getD k d2) := by
  rw [List.getD_eq_getElem _ _ (by simpa using h),
    List.getD_eq_getElem _ _ h, List.getElem_map]

theorem range_map_getD [Inhabited α] (l : List α) :
    (List.range l.length).map (fun i => l.getD i default) = l := by
  apply List.ext_getElem
  · simp
  · intro i h1 h2
    simp only [List.getElem_map, List.getElem_range]
    exact List.getD_eq_getElem l default h2

theorem getD_mem [Inhabited α] (l : List α) (k : Nat) (h : k < l.length)
    (d : α) : l.getD k d ∈ l := by
  rw [List.getD_eq_getElem _ _ h]
  exact List.getElem_mem h

theorem updateCols_full (old new : List (List α))
    (h : new.length = old.length) : updateCols old new = new := by
  unfold updateCols
  rw [List.take_of_length_le (le_of_eq h), h, min_self, List.drop_length,
    List.append_nil]

/-! ## Claim theorem: synchronized shuffle -/

/-- C1: one row permutation is applied to every column of both bundles at
once: for every permutation-applying `shuf` (the model of `random.shuffle`
for every seed), if all columns of both bundles have length `n`, then after
`shuffle` all columns still have length `n`, each bundle keeps its column
count, and the tuple of values at every position `k` across all columns of
both bundles equals the tuple that existed at some single index `j` before
the shuffle — no column element content is changed. -/
theorem c1_shuffle_synchronized {α : Type} [Inhabited α]
    (shuf : List (List α) → List (List α))
    (hshuf : ∀ l : List (List α), (shuf l).Perm l)
    (inp tar : List (List α)) (n : Nat)
    (hne : inp ++ tar ≠ [])
    (hlen : ∀ c ∈ inp ++ tar, c.length = n) :
    (∀ c ∈ (shuffleData shuf inp tar).1 ++ (shuffleData shuf inp tar).2,
        c.length = n) ∧
    (shuffleData shuf inp tar).1.length = inp.length ∧
    (shuffleData shuf inp tar).2.length = tar.length ∧
    (∀ k, k < n → ∃ j, j < n ∧
      rowAt ((shuffleData shuf inp tar).1 ++ (shuffleData shuf inp tar).2) k
        = rowAt (inp ++ tar) j) := by
  have hrows : zipStar (inp ++ tar) = (List.range n).map (fun i => rowAt (inp ++ tar) i) :=
    zipStar_eq (inp ++ tar) n hne hlen
  have hperm : (shuf (zipStar (inp ++ tar))).Perm
      ((List.range n).map (fun i => rowAt (inp ++ tar) i)) := by
    rw [← hrows]
    exact hshuf _
  have hslen : (shuf (zipStar (inp ++ tar))).length = n := by
    rw [hperm.length_eq]
    simp
  have hsmem : ∀ r ∈ shuf (zipStar (inp ++ tar)), r.length = (inp ++ tar).length := by
    intro r hr
    have hr2 := hperm.subset hr
    obtain ⟨i, _, rfl⟩ := List.mem_map.1 hr2
    unfold rowAt
    simp
  rcases Nat.eq_zero_or_pos n with hn0 | hnpos
  · -- no rows: zip of the permuted rows is empty and both bundles are unchanged
    subst hn0
    have hs0 : shuf (zipStar (inp ++ tar)) = [] :=
      List.eq_nil_of_length_eq_zero hslen
    have hres : shuffleData shuf inp tar = (inp, tar) := by
      show (updateCols inp ((zipStar (shuf (zipStar (inp ++ tar)))).take inp.length),
            updateCols tar ((zipStar (shuf (zipStar (inp ++ tar)))).drop inp.length))
          = (inp, tar)
      rw [hs0]
      simp [zipStar, updateCols]
    rw [hres]
    refine ⟨?_, rfl, rfl, ?_⟩
    · exact hlen
    · intro k hk
      omega
  · -- at least one row: every column is fully replaced
    have hdata : (inp ++ tar).length = inp.length + tar.length := List.length_append _ _
    have hsne : shuf (zipStar (inp ++ tar)) ≠ [] := by
      intro h
      rw [h] at hslen
      simp at hslen
      omega
    have hzs : zipStar (shuf (zipStar (inp ++ tar)))
        = (List.range (inp ++ tar).length).map
            (fun i => rowAt (shuf (zipStar (inp ++ tar))) i) :=
      zipStar_eq _ _ hsne hsmem
    have hzslen : (zipStar (shuf (zipStar (inp ++ tar)))).length = (inp ++ tar).length := by
      rw [hzs]
      simp
    have hzsmem : ∀ c ∈ zipStar (shuf (zipStar (inp ++ tar))), c.length = n := by
      intro c hc
      rw [hzs] at hc
      obtain ⟨i, _, rfl⟩ := List.mem_map.1 hc
      unfold rowAt
      simp [hslen]
    have htlen : ((zipStar (shuf (zipStar (inp ++ tar)))).take inp.length).length
        = inp.length := by
      rw [List.length_take, hzslen]
      omega
    have hdlen : ((zipStar (shuf (zipStar (inp ++ tar)))).drop inp.length).length
        = tar.length := by
      rw [List.length_drop, hzslen]
      omega
    have h1eq : (shuffleData shuf inp tar).1
        = (zipStar (shuf (zipStar (inp ++ tar)))).take inp.length :=
      updateCols_full _ _ htlen
    have h2eq : (shuffleData shuf inp tar).2
        = (zipStar (shuf (zipStar (inp ++ tar)))).drop inp.length :=
      updateCols_full _ _ hdlen
    have happ : (shuffleData shuf inp tar).1 ++ (shuffleData shuf inp tar).2
        = zipStar (shuf (zipStar (inp ++ tar))) := by
      rw [h1eq, h2eq, List.take_append_drop]
    refine ⟨?_, ?_, ?_, ?_⟩
    · intro c hc
      rw [happ] at hc
      exact hzsmem c hc
    · rw [h1eq]
      exact htlen
    · rw [h2eq]
      exact hdlen
    · intro k hk
      have hkts : k < (shuf (zipStar (inp ++ tar))).length := by omega
      have hRmem : (shuf (zipStar (inp ++ tar))).getD k [] ∈ shuf (zipStar (inp ++ tar)) :=
        getD_mem _ k hkts []
      have hRrows := hperm.subset hRmem
      obtain ⟨j, hjr, hRj⟩ := List.mem_map.1 hRrows
      refine ⟨j, List.mem_range.1 hjr, ?_⟩
      rw [happ, hRj]
      rw [hzs]
      unfold rowAt
      rw [List.map_map]
      have hstep : ∀ j2 ∈ List.range (inp ++ tar).length,
          ((fun c : List α => c.getD k default) ∘
            (fun i => (shuf (zipStar (inp ++ tar))).map (fun c => c.getD i default))) j2
          = ((shuf (zipStar (inp ++ tar))).getD k []).getD j2 default := by
        intro j2 _
        simp only [Function.comp]
        exact getD_map_of_lt (shuf (zipStar (inp ++ tar)))
          (fun c => c.getD j2 default) k hkts []
      rw [List.map_congr_left hstep]
      have hRlen : ((shuf (zipStar (inp ++ tar))).getD k []).length
          = (inp ++ tar).length := hsmem _ hRmem
      rw [← hRlen]
      exact range_map_getD _

/-- C1 witness: with two equal-length columns in each bundle and the reversal
permutation as the drawn shuffle, every post-shuffle row is a pre-shuffle
row. -/
theorem c1_shuffle_synchronized_witness :
    ∃ j, j < 2 ∧
      rowAt ((shuffleData List.reverse [[(1 : Int), 2]] [[3, 4], [5, 6]]).1
          ++ (shuffleData List.reverse [[(1 : Int), 2]] [[3, 4], [5, 6]]).2) 0
        = rowAt ([[(1 : Int), 2]] ++ [[3, 4], [5, 6]]) j :=
  (c1_shuffle_synchronized List.reverse (fun l => l.reverse_perm)
    [[(1 : Int), 2]] [[3, 4], [5, 6]] 2 (by decide) (by decide)).2.2.2 0 (by decide)

end SYF
